import Mathlib

/-!
# Verification of the PDF page tiling pipeline (`word/cut_word.py`)

Shallow embedding of the `PDFImageProcessor` class: the tiler
(`_process_cuts`), the rectangle filter and orderer (`_process_contours`),
the progress tracker (`_update_progress`), the page pipeline
(`_process_page`) and the batch coordinator (`process`).

Conventions of the embedding:
* pixel buffers (`numpy` arrays) are modelled by `Image`: a height, a
  width and a pixel lookup function (row, column);
* `numpy` basic slicing `image[:, a:b]` is modelled by `Image.hslice`
  with Python's index resolution (negative indices count from the end,
  out-of-range indices are clamped);
* Python `int()` on a rational value is truncation toward zero (`pyInt`);
  `float` arithmetic is modelled exactly over `ℚ`;
* fallible steps (filesystem, rendering, OpenCV calls) are supplied by a
  `PageEnv` record of `Except`-valued operations; `cv2.imread` returning
  `None` is an `Option`;
* Python's `sorted` with a key is a stable sort; it is modelled by
  `List.insertionSort`, which is stable, on the key order `yle` (any two
  stable sorts with the same key agree).
-/

namespace CutWord

/-- Python `int()` applied to an exact real value: truncation toward zero. -/
def pyInt (q : ℚ) : Int := if 0 ≤ q then ⌊q⌋ else ⌈q⌉

/-- A pixel buffer: height, width and a pixel lookup (row, column). -/
structure Image where
  height : Nat
  width : Nat
  pix : Nat → Nat → Nat

/-- Python slice-bound resolution for an axis of length `len`: a negative
bound counts from the end, and bounds are clamped into `[0, len]`. -/
def sliceIdx (len : Nat) (i : Int) : Nat :=
  if i < 0 then ((len : Int) + i).toNat else min i.toNat len

/-- Slicing `image[:, a:b]`: all rows, columns `a` to `b` (Python slicing rules). -/
def Image.hslice (img : Image) (a b : Int) : Image :=
  ⟨img.height, sliceIdx img.width b - sliceIdx img.width a,
   fun r c => img.pix r (sliceIdx img.width a + c)⟩

/-- Slicing `image[a:b, :]`: rows `a` to `b`, all columns (Python slicing rules). -/
def Image.vslice (img : Image) (a b : Int) : Image :=
  ⟨sliceIdx img.height b - sliceIdx img.height a, img.width,
   fun r c => img.pix (sliceIdx img.height a + r) c⟩

/-- Slicing `image[y:y+h, x:x+w]`, the crop of a detected rectangle. -/
def Image.crop (img : Image) (x y w h : Nat) : Image :=
  (img.vslice (y : Int) ((y : Int) + (h : Int))).hslice (x : Int) ((x : Int) + (w : Int))

/-- The tiler `_process_cuts`: slice a region image into tiles of (at most) the
target width; the trailing remainder is kept only when it is at least
half the target width. -/
def process_cuts (target_width : ℚ) (image : Image) : List Image :=
  let width := image.width
  let num_cuts : Int := ⌈(width : ℚ) / target_width⌉
  let cuts := (List.range (num_cuts - 1).toNat).map (fun (i : Nat) =>
    image.hslice (pyInt ((i : ℚ) * target_width))
      (pyInt (min (((i : ℚ) + 1) * target_width) (width : ℚ))))
  let last_start : Int := pyInt (((num_cuts : ℚ) - 1) * target_width)
  if (width : ℚ) - (last_start : ℚ) ≥ target_width * (1/2) then
    cuts ++ [image.hslice last_start (width : Int)]
  else
    cuts

/-- The column bounds of the slices produced by `_process_cuts`, as the
code computes them (Python `int()` truncation included). -/
def cut_bounds (W : Nat) (tw : ℚ) : List (Int × Int) :=
  let num_cuts : Int := ⌈(W : ℚ) / tw⌉
  ((List.range (num_cuts - 1).toNat).map (fun (i : Nat) =>
    (pyInt ((i : ℚ) * tw), pyInt (min (((i : ℚ) + 1) * tw) (W : ℚ))))) ++
  (if (W : ℚ) - (pyInt (((num_cuts : ℚ) - 1) * tw) : ℚ) ≥ tw * (1/2) then
    [(pyInt (((num_cuts : ℚ) - 1) * tw), (W : Int))]
  else [])

/-- A detected bounding rectangle `(x, y, w, h)` (`cv2.boundingRect`). -/
structure Rect where
  x : Nat
  y : Nat
  w : Nat
  h : Nat
deriving DecidableEq

/-- The sort key order of `_process_contours`: compare `y` coordinates
(`key=lambda x: x[1]`). -/
def yle (a b : Rect) : Prop := a.y ≤ b.y

instance : DecidableRel yle := fun a b => inferInstanceAs (Decidable (a.y ≤ b.y))

instance : IsTotal Rect yle := ⟨fun a b => Nat.le_total a.y b.y⟩

instance : IsTrans Rect yle := ⟨fun _ _ _ => Nat.le_trans⟩

/-- The filter and orderer `_process_contours`, after the region extractor has produced bounding
rectangles: keep those strictly wider than `min_contour_width` and
strictly taller than `min_contour_height`, then sort by `y` with a
stable sort (Python's `sorted` is stable; `insertionSort` is the stable
sort on the same key order). -/
def process_contours (min_contour_width min_contour_height : Nat)
    (rects : List Rect) : List Rect :=
  List.insertionSort yle (rects.filter
    (fun r => min_contour_width < r.w && min_contour_height < r.h))

/-- The progress tracker `_update_progress`: increment the processed-page counter; the `Bool`
records whether the 10-page status report is printed. -/
def update_progress (processed_pages : Nat) : Nat × Bool :=
  (processed_pages + 1, (processed_pages + 1) % 10 == 0)

/-- Iterated progress updates: `n` successive calls of `_update_progress` starting from counter `s`:
the final counter and the per-call report flags, in call order. -/
def progress_run (s : Nat) : Nat → Nat × List Bool
  | 0 => (s, [])
  | n + 1 =>
    let t := update_progress s
    let rest := progress_run t.1 n
    (rest.1, t.2 :: rest.2)

/-- The fallible external operations one `_process_page` call performs,
in the order the code performs them: directory creation (`os.makedirs`),
rendering and saving the page image (`load_page`, `get_pixmap`,
`pix.save`), reading the saved image back (`cv2.imread`, whose result
may be `None`), region detection (the OpenCV calls feeding
`_process_contours`), and each tile write (`cv2.imwrite`). An
`Except.error` models a raised exception. -/
structure PageEnv where
  create_dir : Except String Unit
  render : Except String Unit
  imread : Option Image
  detect : Image → Except String (List Rect)
  write_tile : Nat → Nat → Image → Except String Unit

/-- The inner tile loop of `_process_page`: write each cut of one region,
threading the per-page tile counter `i`; returns the updated counter. -/
def write_cuts (env : PageEnv) (idx : Nat) : Nat → List Image → Except String Nat
  | i, [] => .ok i
  | i, cut :: rest =>
    match env.write_tile (idx + 1) i cut with
    | .error e => .error e
    | .ok _ => write_cuts env idx (i + 1) rest

/-- The region loop of `_process_page`: crop each region, tile it, write
the tiles; `idx` is the 0-based region index, `i` the tile counter. -/
def write_regions (env : PageEnv) (tw : ℚ) (image : Image) :
    Nat → Nat → List Rect → Except String Nat
  | _, i, [] => .ok i
  | idx, i, r :: rest =>
    match write_cuts env idx i (process_cuts tw (image.crop r.x r.y r.w r.h)) with
    | .error e => .error e
    | .ok i2 => write_regions env tw image (idx + 1) i2 rest

/-- The body of `_process_page`'s `try` block. `Except.ok false` is the
early `return` taken when `cv2.imread` yields `None`; `Except.ok true`
is normal completion of steps 1-4; `Except.error` is a raised
exception. -/
def page_body (min_w min_h : Nat) (tw : ℚ) (env : PageEnv) : Except String Bool :=
  match env.create_dir with
  | .error e => .error e
  | .ok _ =>
    match env.render with
    | .error e => .error e
    | .ok _ =>
      match env.imread with
      | none => .ok false
      | some image =>
        match env.detect image with
        | .error e => .error e
        | .ok rects =>
          match write_regions env tw image 0 1 (process_contours min_w min_h rects) with
          | .error e => .error e
          | .ok _ => .ok true

/-- The line `_process_page` prints before re-raising: it names the page
index and the error detail. -/
def err_line (page_num : Nat) (e : String) : String :=
  s!"page {page_num} error: {e}"

/-- The status line `_update_progress` prints at every 10th completion. -/
def report_line (n : Nat) : String :=
  s!"{n} pages processed"

/-- The page pipeline `_process_page`: run the `try` body; on normal completion call
`_update_progress`; on the `imread is None` early return do nothing
further; on an exception print the error line and re-raise. Returns the
result handed to the caller, the updated `processed_pages` counter and
the printed lines. -/
def process_page (min_w min_h : Nat) (tw : ℚ) (page_num : Nat) (env : PageEnv)
    (processed_pages : Nat) : Except String Unit × Nat × List String :=
  match page_body min_w min_h tw env with
  | .ok false => (.ok (), processed_pages, [])
  | .ok true =>
    let t := update_progress processed_pages
    (.ok (), t.1, if t.2 then [report_line t.1] else [])
  | .error e => (.error e, processed_pages, [err_line page_num e])

/-- The effective end page computed by `process`:
`min(self.end_page or pdf_document.page_count, pdf_document.page_count)`.
Python's `or` takes the page count when `end_page` is `None` or `0`
(both falsy). -/
def effective_end (end_page : Option Int) (page_count : Int) : Int :=
  min (match end_page with
    | none => page_count
    | some e => if e = 0 then page_count else e) page_count

/-- Python `range(a, b)` over integers. -/
def int_range (a b : Int) : List Int :=
  (List.range (b - a).toNat).map (fun (i : Nat) => a + (i : Int))

/-- The page indices `process` submits to the worker pool, in submission
order: `range(self.start_page, end_page)`. -/
def submitted_pages (start_page : Int) (end_page : Option Int) (page_count : Int) :
    List Int :=
  int_range start_page (effective_end end_page page_count)

/-- A concrete all-zero pixel buffer, used to instantiate theorems. -/
def testImage (h w : Nat) : Image := ⟨h, w, fun _ _ => 0⟩

/-- A page environment whose render succeeds but whose saved image reads
back as `None` (every other operation succeeds). -/
def envNone : PageEnv :=
  ⟨.ok (), .ok (), none, fun _ => .ok [], fun _ _ _ => .ok ()⟩

/-- A page environment whose directory creation raises. -/
def envBad : PageEnv :=
  ⟨.error "boom", .ok (), some (testImage 1 4), fun _ => .ok [], fun _ _ _ => .ok ()⟩

/-! ## Basic lemmas about the embedding -/

lemma pyInt_of_nonneg {q : ℚ} (h : 0 ≤ q) : pyInt q = ⌊q⌋ := if_pos h

lemma sliceIdx_of_nonneg (len : Nat) {i : Int} (h : 0 ≤ i) :
    sliceIdx len i = min i.toNat len :=
  if_neg (by omega)

lemma sliceIdx_le (len : Nat) (i : Int) : sliceIdx len i ≤ len := by
  unfold sliceIdx
  split
  · omega
  · exact Nat.min_le_right _ _

lemma sliceIdx_zero (i : Int) : sliceIdx 0 i = 0 := by
  unfold sliceIdx
  split <;> omega

lemma sliceIdx_mono (len : Nat) {i j : Int} (h0 : 0 ≤ i) (hij : i ≤ j) :
    sliceIdx len i ≤ sliceIdx len j := by
  rw [sliceIdx_of_nonneg len h0, sliceIdx_of_nonneg len (le_trans h0 hij)]
  have := Int.toNat_le_toNat hij
  omega

lemma sliceIdx_natCast (len w : Nat) : sliceIdx len (w : Int) = min w len := by
  rw [sliceIdx_of_nonneg len (by positivity), Int.toNat_natCast]

/-- The tiler, reexpressed through the bounds list it slices at. -/
lemma process_cuts_eq_map (tw : ℚ) (img : Image) :
    process_cuts tw img = (cut_bounds img.width tw).map (fun p => img.hslice p.1 p.2) := by
  simp only [process_cuts, cut_bounds]
  split
  · simp [List.map_append, Function.comp]
  · simp [Function.comp]

/-- Concrete tiling bounds at width 16 and target width 10.8 = 54/5. -/
lemma cut_bounds_16 : cut_bounds 16 (54/5) = [(0, 10), (10, 16)] := by
  have hc : ⌈((16:ℕ):ℚ)/(54/5)⌉ = (2:Int) := by
    rw [Int.ceil_eq_iff]
    constructor <;> norm_num
  simp only [cut_bounds, hc]
  norm_num [pyInt, List.range_succ]

/-- Concrete tiling bounds at width 4 and target width 10: the whole
region is below half the target width and is dropped. -/
lemma cut_bounds_4_10 : cut_bounds 4 10 = [] := by
  have hc : ⌈((4:ℕ):ℚ)/10⌉ = (1:Int) := by
    rw [Int.ceil_eq_iff]
    constructor <;> norm_num
  simp only [cut_bounds, hc]
  norm_num [pyInt]

/-- With a positive target width, the ceiling count leaves the last
full-tile start strictly inside the region. -/
lemma last_start_lt (W : Nat) (tw : ℚ) (htw : 0 < tw) :
    ((⌈(W:ℚ) / tw⌉ : ℚ) - 1) * tw < (W:ℚ) := by
  have h1 : (⌈(W:ℚ) / tw⌉ : ℚ) < (W:ℚ) / tw + 1 := Int.ceil_lt_add_one _
  have h2 : (⌈(W:ℚ) / tw⌉ : ℚ) - 1 < (W:ℚ) / tw := by linarith
  calc ((⌈(W:ℚ) / tw⌉ : ℚ) - 1) * tw < ((W:ℚ) / tw) * tw :=
        mul_lt_mul_of_pos_right h2 htw
    _ = (W:ℚ) := div_mul_cancel₀ _ (ne_of_gt htw)

/-- Effective (clamped) slice bounds of the tiler: every slice is a
subinterval of `[0, W)` with start no later than end, and the slices
are pairwise ordered left to right without overlap. -/
lemma cut_bounds_eff_facts (W : Nat) (tw : ℚ) (htw : 0 < tw) :
    (∀ p ∈ (cut_bounds W tw).map (fun p => (sliceIdx W p.1, sliceIdx W p.2)),
        p.1 ≤ p.2 ∧ p.2 ≤ W) ∧
    ((cut_bounds W tw).map (fun p => (sliceIdx W p.1, sliceIdx W p.2))).Pairwise
        (fun p q => p.2 ≤ q.1) := by
  rcases Nat.eq_zero_or_pos W with hW | hW
  · subst hW
    constructor
    · intro p hp
      simp only [List.mem_map] at hp
      obtain ⟨q, _, rfl⟩ := hp
      simp [sliceIdx_zero]
    · have h0 : ⌈((0:ℕ):ℚ) / tw⌉ = (0:Int) := by norm_num
      simp only [cut_bounds, h0]
      have h1 : ((0:Int) - 1).toNat = 0 := by decide
      rw [h1]
      simp only [List.range_zero, List.map_nil, List.nil_append]
      split
      · simp
      · simp
  · have hWq : (0:ℚ) < (W:ℚ) := by exact_mod_cast hW
    have hn : (1:Int) ≤ ⌈(W:ℚ) / tw⌉ := Int.ceil_pos.mpr (div_pos hWq htw)
    set n : Int := ⌈(W:ℚ) / tw⌉ with hndef
    have hlast : ((n:ℚ) - 1) * tw < (W:ℚ) := last_start_lt W tw htw
    have hmono : ∀ {x y : ℚ}, 0 ≤ x → x ≤ y →
        sliceIdx W (pyInt x) ≤ sliceIdx W (pyInt y) := by
      intro x y hx hxy
      rw [pyInt_of_nonneg hx, pyInt_of_nonneg (le_trans hx hxy)]
      exact sliceIdx_mono W (Int.floor_nonneg.mpr hx) (Int.floor_le_floor hxy)
    have hloop_le : ∀ i : Nat, i < (n - 1).toNat →
        ((i:ℚ) + 1) * tw ≤ ((n:ℚ) - 1) * tw := by
      intro i hi
      have hii : (i:Int) + 1 ≤ n - 1 := by omega
      have : ((i:ℚ) + 1) ≤ (n:ℚ) - 1 := by exact_mod_cast hii
      exact mul_le_mul_of_nonneg_right this htw.le
    constructor
    · intro p hp
      simp only [cut_bounds, List.map_append, List.mem_append] at hp
      rcases hp with hp | hp
      · rw [List.map_map] at hp
        simp only [List.mem_map, List.mem_range] at hp
        obtain ⟨i, hi, rfl⟩ := hp
        simp only [Function.comp]
        constructor
        · refine hmono (by positivity) (le_min ?_ ?_)
          · nlinarith [Nat.cast_nonneg (α := ℚ) i]
          · have := hloop_le i hi
            have hiq : (i:ℚ) * tw ≤ ((i:ℚ) + 1) * tw := by nlinarith
            linarith
        · exact sliceIdx_le _ _
      · constructor
        · split at hp
          · simp only [List.map_cons, List.map_nil, List.mem_singleton] at hp
            subst hp
            simp only [Function.comp]
            have hn1 : (0:ℚ) ≤ ((n:ℚ) - 1) * tw := by
              have : (1:ℚ) ≤ (n:ℚ) := by exact_mod_cast hn
              nlinarith
            rw [pyInt_of_nonneg hn1]
            rw [sliceIdx_of_nonneg W (Int.floor_nonneg.mpr hn1), sliceIdx_natCast]
            have hfl : ⌊((n:ℚ) - 1) * tw⌋ ≤ (W:Int) := by
              have h := Int.floor_le_floor hlast.le
              simpa using h
            have := Int.toNat_le_toNat hfl
            simp only [Int.toNat_natCast] at this
            omega
          · simp at hp
        · split at hp
          · simp only [List.map_cons, List.map_nil, List.mem_singleton] at hp
            subst hp
            simpa using sliceIdx_le W ((W : Nat) : Int)
          · simp at hp
    · simp only [cut_bounds, List.map_append, List.pairwise_append]
      refine ⟨?_, ?_, ?_⟩
      · rw [List.map_map, List.pairwise_map]
        refine (List.pairwise_lt_range _).imp ?_
        intro i j hij
        simp only [Function.comp]
        refine hmono (le_min (by positivity) (by positivity)) ?_
        refine le_trans (min_le_left _ _) ?_
        have : ((i:ℚ) + 1) ≤ (j:ℚ) := by exact_mod_cast hij
        exact mul_le_mul_of_nonneg_right this htw.le
      · split
        · simp
        · simp
      · intro p hp q hq
        rw [List.map_map] at hp
        simp only [List.mem_map, List.mem_range] at hp
        obtain ⟨i, hi, rfl⟩ := hp
        split at hq
        · simp only [List.map_cons, List.map_nil, List.mem_singleton] at hq
          subst hq
          simp only [Function.comp]
          have hn1 : (0:ℚ) ≤ ((n:ℚ) - 1) * tw := by
            have : (1:ℚ) ≤ (n:ℚ) := by exact_mod_cast hn
            nlinarith
          refine hmono (le_min (by positivity) (by positivity)) ?_
          exact le_trans (min_le_left _ _) (hloop_le i hi)
        · simp at hq

/-- Sum of interval lengths along an ordered chain of subintervals of
`[m, W)` is at most `W - m`. -/
lemma sum_widths_le (W : Nat) : ∀ (l : List (Nat × Nat)) (m : Nat),
    (∀ p ∈ l, p.1 ≤ p.2 ∧ p.2 ≤ W) → (∀ p ∈ l, m ≤ p.1) →
    l.Pairwise (fun p q => p.2 ≤ q.1) →
    ((l.map (fun p => p.2 - p.1)).sum) ≤ W - m := by
  intro l
  induction l with
  | nil => intro m _ _ _; simp
  | cons p l ih =>
    intro m h1 h2 hp
    rw [List.pairwise_cons] at hp
    have hsum := ih p.2 (fun q hq => h1 q (List.mem_cons_of_mem _ hq))
      (fun q hq => hp.1 q hq) hp.2
    have hpW := h1 p (List.mem_cons_self _ _)
    have hpm : m ≤ p.1 := h2 p (List.mem_cons_self _ _)
    simp only [List.map_cons, List.sum_cons]
    omega

/-! ## Stability of the `y`-sort -/

lemma filter_orderedInsert_of_ne (y0 : Nat) (a : Rect) (ha : ¬ a.y = y0) :
    ∀ l : List Rect,
      (List.orderedInsert yle a l).filter (fun b => b.y == y0) =
        l.filter (fun b => b.y == y0) := by
  intro l
  induction l with
  | nil => simp [List.orderedInsert, List.filter_cons, beq_iff_eq, ha]
  | cons b l ih =>
    by_cases h : yle a b
    · simp [List.orderedInsert, if_pos h, List.filter_cons, beq_iff_eq, ha]
    · simp [List.orderedInsert, if_neg h, List.filter_cons, beq_iff_eq, ih]

lemma filter_orderedInsert_of_eq (y0 : Nat) (a : Rect) (ha : a.y = y0) :
    ∀ l : List Rect, l.Sorted yle →
      (List.orderedInsert yle a l).filter (fun b => b.y == y0) =
        a :: l.filter (fun b => b.y == y0) := by
  intro l
  induction l with
  | nil => intro _; simp [List.orderedInsert, List.filter_cons, beq_iff_eq, ha]
  | cons b l ih =>
    intro hs
    by_cases h : yle a b
    · simp [List.orderedInsert, if_pos h, List.filter_cons, beq_iff_eq, ha]
    · have hby : ¬ b.y = y0 := by
        unfold yle at h
        omega
      rw [show List.orderedInsert yle a (b :: l) = b :: List.orderedInsert yle a l from
        if_neg h]
      rw [List.filter_cons, List.filter_cons]
      have hb : (b.y == y0) = false := by
        simpa using hby
      rw [hb]
      simp only [Bool.false_eq_true, if_false]
      exact ih hs.of_cons

/-- Stability of the stable sort: restricting the sorted output to any
fixed `y` value gives exactly the same subsequence as in the input. -/
lemma filter_insertionSort (y0 : Nat) :
    ∀ l : List Rect,
      (List.insertionSort yle l).filter (fun b => b.y == y0) =
        l.filter (fun b => b.y == y0) := by
  intro l
  induction l with
  | nil => rfl
  | cons a l ih =>
    show (List.orderedInsert yle a (List.insertionSort yle l)).filter _ = _
    by_cases ha : a.y = y0
    · rw [filter_orderedInsert_of_eq y0 a ha _ (List.sorted_insertionSort yle l), ih]
      simp [List.filter_cons, ha]
    · rw [filter_orderedInsert_of_ne y0 a ha, ih]
      simp [List.filter_cons, ha]

/-! ## Progress tracker lemmas -/

lemma progress_run_fst (n : Nat) : ∀ s : Nat, (progress_run s n).1 = s + n := by
  induction n with
  | zero => intro s; simp [progress_run]
  | succ n ih =>
    intro s
    simp only [progress_run, update_progress]
    rw [ih]
    omega

lemma progress_run_snd (n : Nat) : ∀ s : Nat,
    (progress_run s n).2 = (List.range n).map (fun k => (s + k + 1) % 10 == 0) := by
  induction n with
  | zero => intro s; simp [progress_run]
  | succ n ih =>
    intro s
    simp only [progress_run, update_progress]
    rw [ih (s + 1), List.range_succ_eq_map, List.map_cons, List.map_map]
    refine congrArg₂ _ (by norm_num) ?_
    refine List.map_congr_left ?_
    intro k _
    simp only [Function.comp, Nat.succ_eq_add_one]
    have : s + (k + 1) + 1 = s + 1 + k + 1 := by omega
    rw [this]

lemma testImage_width (h w : Nat) : (testImage h w).width = w := rfl

lemma testImage_height (h w : Nat) : (testImage h w).height = h := rfl

/-! ## Claims -/

/-- C1, counterexample. The claim asserts the final slice is present iff
`W − (⌈W/T⌉−1)·T ≥ 0.5·T`, with exact arithmetic. At `W = 16`,
`T = 54/5 = 10.8` (the configured default `516.6` is likewise
fractional), `⌈W/T⌉ = 2` and `16 − 1·10.8 = 5.2 < 5.4`, so the claim
predicts exactly `⌈W/T⌉ − 1 = 1` slice; but the code computes
`last_start = int(1 · 10.8) = 10` and `16 − 10 = 6 ≥ 5.4`, so it emits
the final slice and returns 2 slices. -/
theorem claim_C1_counterexample :
    ⌈((16:ℕ):ℚ) / (54/5)⌉ = 2 ∧
    ¬ (((16:ℕ):ℚ) - ((2:ℚ) - 1) * (54/5) ≥ (54/5) * (1/2)) ∧
    (process_cuts (54/5) (testImage 1 16)).length = 2 := by
  refine ⟨?_, ?_, ?_⟩
  · rw [Int.ceil_eq_iff]
    constructor <;> norm_num
  · norm_num
  · rw [process_cuts_eq_map, testImage_width, cut_bounds_16]
    rfl

/-- C1 (amended): for `W > 0` and `T > 0` the tiler returns the
`⌈W/T⌉ − 1` loop slices with column bounds `⌊i·T⌋` to
`⌊min((i+1)·T, W)⌋`, followed by the final slice starting at
`⌊(⌈W/T⌉−1)·T⌋` iff `W − ⌊(⌈W/T⌉−1)·T⌋ ≥ 0.5·T` (the code's Python
`int()` truncations applied); otherwise the trailing columns appear in
no slice. -/
theorem claim_C1 (img : Image) (tw : ℚ) (h1 : 0 < img.width) (h2 : 0 < tw) :
    process_cuts tw img =
      (List.range ((⌈(img.width : ℚ) / tw⌉ - 1).toNat)).map (fun (i : Nat) =>
        img.hslice ⌊(i : ℚ) * tw⌋ ⌊min (((i : ℚ) + 1) * tw) (img.width : ℚ)⌋) ++
      (if (img.width : ℚ) - (⌊((⌈(img.width : ℚ) / tw⌉ : ℚ) - 1) * tw⌋ : ℚ) ≥ tw / 2 then
        [img.hslice ⌊((⌈(img.width : ℚ) / tw⌉ : ℚ) - 1) * tw⌋ (img.width : Int)]
      else []) := by
  have hWq : (0:ℚ) < (img.width : ℚ) := by exact_mod_cast h1
  have hn : (1:Int) ≤ ⌈(img.width : ℚ) / tw⌉ := Int.ceil_pos.mpr (div_pos hWq h2)
  have hnn : (0:ℚ) ≤ ((⌈(img.width : ℚ) / tw⌉ : ℚ) - 1) * tw := by
    have : (1:ℚ) ≤ ((⌈(img.width : ℚ) / tw⌉ : Int) : ℚ) := by exact_mod_cast hn
    nlinarith
  have hpl : pyInt (((⌈(img.width : ℚ) / tw⌉ : ℚ) - 1) * tw) =
      ⌊((⌈(img.width : ℚ) / tw⌉ : ℚ) - 1) * tw⌋ := pyInt_of_nonneg hnn
  have hloop : (List.range ((⌈(img.width : ℚ) / tw⌉ - 1).toNat)).map (fun (i : Nat) =>
        img.hslice (pyInt ((i : ℚ) * tw))
          (pyInt (min (((i : ℚ) + 1) * tw) (img.width : ℚ)))) =
      (List.range ((⌈(img.width : ℚ) / tw⌉ - 1).toNat)).map (fun (i : Nat) =>
        img.hslice ⌊(i : ℚ) * tw⌋ ⌊min (((i : ℚ) + 1) * tw) (img.width : ℚ)⌋) := by
    refine List.map_congr_left ?_
    intro i _
    rw [pyInt_of_nonneg (by positivity),
      pyInt_of_nonneg (le_min (by positivity) (by positivity))]
  simp only [process_cuts, hpl, mul_one_div]
  by_cases hcond : (img.width : ℚ) -
      (⌊((⌈(img.width : ℚ) / tw⌉ : ℚ) - 1) * tw⌋ : ℚ) ≥ tw / 2
  · rw [if_pos hcond, if_pos hcond]
    rw [hloop]
  · rw [if_neg hcond, if_neg hcond, List.append_nil]
    exact hloop

/-- C1 witness: the amended statement evaluated at width 16 and target
width 10.8. -/
theorem claim_C1_witness :
    process_cuts (54/5) (testImage 1 16) =
      (List.range ((⌈((testImage 1 16).width : ℚ) / (54/5)⌉ - 1).toNat)).map (fun (i : Nat) =>
        (testImage 1 16).hslice ⌊(i : ℚ) * (54/5)⌋
          ⌊min (((i : ℚ) + 1) * (54/5)) ((testImage 1 16).width : ℚ)⌋) ++
      (if ((testImage 1 16).width : ℚ) -
          (⌊((⌈((testImage 1 16).width : ℚ) / (54/5)⌉ : ℚ) - 1) * (54/5)⌋ : ℚ) ≥ (54/5) / 2 then
        [(testImage 1 16).hslice ⌊((⌈((testImage 1 16).width : ℚ) / (54/5)⌉ : ℚ) - 1) * (54/5)⌋
          ((testImage 1 16).width : Int)]
      else []) :=
  claim_C1 (testImage 1 16) (54/5) (by decide) (by norm_num)

/-- C2, counterexample. The claim asserts that `0 < W ≤ T` always yields
exactly one full-width slice. At `W = 4`, `T = 10` the loop is empty and
the final-slice test `4 − 0 ≥ 5` fails, so the tiler returns no slice at
all. -/
theorem claim_C2_counterexample :
    0 < (4:Nat) ∧ ((4:ℕ):ℚ) ≤ 10 ∧ process_cuts 10 (testImage 1 4) = [] := by
  refine ⟨by norm_num, by norm_num, ?_⟩
  rw [process_cuts_eq_map, testImage_width, cut_bounds_4_10]
  rfl

/-- C2 (amended): for `0 < W ≤ T` the tiler produces exactly one slice,
covering the full width, iff additionally `T ≤ 2·W` (the remainder rule
applies to the whole region because the loop body is empty); when
`2·W < T` it produces no slice at all. -/
theorem claim_C2 (img : Image) (tw : ℚ) (h1 : 0 < img.width) (h2 : (img.width : ℚ) ≤ tw) :
    (tw ≤ 2 * (img.width : ℚ) →
      process_cuts tw img = [img.hslice 0 (img.width : Int)]) ∧
    (2 * (img.width : ℚ) < tw → process_cuts tw img = []) := by
  have hWq : (0:ℚ) < (img.width : ℚ) := by exact_mod_cast h1
  have htw : 0 < tw := lt_of_lt_of_le hWq h2
  have hn : ⌈(img.width : ℚ) / tw⌉ = (1:Int) := by
    rw [Int.ceil_eq_iff]
    constructor
    · simpa using div_pos hWq htw
    · push_cast
      rw [div_le_one htw]
      exact h2
  have hls : pyInt ((((1:Int) : ℚ) - 1) * tw) = 0 := by
    norm_num [pyInt]
  simp only [process_cuts, hn, hls]
  norm_num
  constructor
  · intro hc
    linarith
  · intro hc
    linarith

/-- C2 witness: width 8 against target width 10 yields one full-width
slice. -/
theorem claim_C2_witness :
    process_cuts 10 (testImage 1 8) = [(testImage 1 8).hslice 0 ((testImage 1 8).width : Int)] :=
  (claim_C2 (testImage 1 8) 10 (by decide) (by norm_num [testImage_width])).1
    (by norm_num [testImage_width])

/-- C8: for every region buffer and positive target width, the summed
widths of the returned slices never exceed the region width; and at
width 4 with target width 10 the sum is strictly smaller (the whole
region is dropped). -/
theorem claim_C8 :
    (∀ (img : Image) (tw : ℚ), 0 < tw →
        ((process_cuts tw img).map Image.width).sum ≤ img.width) ∧
    ((process_cuts 10 (testImage 1 4)).map Image.width).sum < (testImage 1 4).width := by
  constructor
  · intro img tw htw
    rw [process_cuts_eq_map, List.map_map]
    have heq : (Image.width ∘ fun p : Int × Int => img.hslice p.1 p.2) =
        ((fun p : Nat × Nat => p.2 - p.1) ∘
          (fun p : Int × Int => (sliceIdx img.width p.1, sliceIdx img.width p.2))) := rfl
    rw [heq, ← List.map_map]
    have hfacts := cut_bounds_eff_facts img.width tw htw
    have := sum_widths_le img.width
      ((cut_bounds img.width tw).map
        (fun p => (sliceIdx img.width p.1, sliceIdx img.width p.2)))
      0 hfacts.1 (fun p _ => Nat.zero_le _) hfacts.2
    simpa using this
  · rw [process_cuts_eq_map, testImage_width, cut_bounds_4_10]
    simp [testImage_width]

/-- C8 witness: the inequality evaluated at a 2-by-7 buffer and target
width 3. -/
theorem claim_C8_witness :
    ((process_cuts 3 (testImage 2 7)).map Image.width).sum ≤ (testImage 2 7).width :=
  claim_C8.1 (testImage 2 7) 3 (by norm_num)

/-- C10: for a positive target width, every slice retains the full
region height, each slice is the contiguous column interval `[p.1, p.2)`
of the region (rows untouched, columns shifted by the slice start), the
intervals lie inside `[0, W)`, and they are ordered left to right
without overlap. -/
theorem claim_C10 (img : Image) (tw : ℚ) (htw : 0 < tw) :
    (∀ s ∈ process_cuts tw img, s.height = img.height) ∧
    ∃ bs : List (Nat × Nat),
      process_cuts tw img =
        bs.map (fun p => Image.mk img.height (p.2 - p.1) (fun r c => img.pix r (p.1 + c))) ∧
      (∀ p ∈ bs, p.1 ≤ p.2 ∧ p.2 ≤ img.width) ∧
      bs.Pairwise (fun p q => p.2 ≤ q.1) := by
  constructor
  · intro s hs
    rw [process_cuts_eq_map] at hs
    simp only [List.mem_map] at hs
    obtain ⟨p, _, rfl⟩ := hs
    rfl
  · refine ⟨(cut_bounds img.width tw).map
      (fun p => (sliceIdx img.width p.1, sliceIdx img.width p.2)), ?_,
      (cut_bounds_eff_facts img.width tw htw).1,
      (cut_bounds_eff_facts img.width tw htw).2⟩
    rw [process_cuts_eq_map, List.map_map]
    rfl

/-- C10 witness: the statement evaluated at a 3-by-7 buffer and target
width 10. -/
theorem claim_C10_witness :
    (∀ s ∈ process_cuts 10 (testImage 3 7), s.height = (testImage 3 7).height) ∧
    ∃ bs : List (Nat × Nat),
      process_cuts 10 (testImage 3 7) =
        bs.map (fun p => Image.mk (testImage 3 7).height (p.2 - p.1)
          (fun r c => (testImage 3 7).pix r (p.1 + c))) ∧
      (∀ p ∈ bs, p.1 ≤ p.2 ∧ p.2 ≤ (testImage 3 7).width) ∧
      bs.Pairwise (fun p q => p.2 ≤ q.1) :=
  claim_C10 (testImage 3 7) 10 (by norm_num)

/-- C4: the rectangle filter and orderer returns exactly the rectangles
strictly exceeding both minimum dimensions (as a permutation of the
filtered input, so multiplicities are preserved), sorted non-decreasing
by `y`, with equal-`y` rectangles in input order (restricting the output
to any fixed `y` reproduces the filtered input subsequence); an empty
input yields an empty output, and the function is pure, so it is
deterministic by construction. -/
theorem claim_C4 (min_w min_h : Nat) (l : List Rect) :
    (process_contours min_w min_h l).Perm
        (l.filter (fun r => min_w < r.w && min_h < r.h)) ∧
    (process_contours min_w min_h l).Sorted yle ∧
    (∀ y0 : Nat, (process_contours min_w min_h l).filter (fun r => r.y == y0) =
        (l.filter (fun r => min_w < r.w && min_h < r.h)).filter (fun r => r.y == y0)) ∧
    process_contours min_w min_h ([] : List Rect) = [] :=
  ⟨List.perm_insertionSort yle _, List.sorted_insertionSort yle _,
    fun y0 => filter_insertionSort y0 _, rfl⟩

/-- C6: starting from zero, `n` calls of the progress tracker leave the
counter at exactly `n`, and the `k`-th call (0-based) prints the status
report exactly when its post-increment value `k + 1` is a multiple of
10. -/
theorem claim_C6 (n : Nat) :
    (progress_run 0 n).1 = n ∧
    (progress_run 0 n).2 = (List.range n).map (fun k => (k + 1) % 10 == 0) := by
  constructor
  · simpa using progress_run_fst n 0
  · simpa using progress_run_snd n 0

/-- C3, counterexample. The claim asserts that when the rendered image
reads back as `None` the page pipeline still signals progress (counter
incremented exactly once). In the code the early `return` precedes
`_update_progress`, so the pipeline returns normally but the counter is
unchanged: starting from 0 it stays 0, not 1. -/
theorem claim_C3_counterexample :
    envNone.imread = none ∧
    (process_page 200 200 (2583/5) 7 envNone 0).1 = Except.ok () ∧
    (process_page 200 200 (2583/5) 7 envNone 0).2.1 = 0 ∧ (0:Nat) ≠ 1 :=
  ⟨rfl, rfl, rfl, by decide⟩

/-- C3 (amended): when directory creation and rendering succeed but the
image reads back as `None`, the page pipeline returns without raising,
prints nothing, and does NOT signal the progress tracker: the counter is
unchanged. -/
theorem claim_C3 (min_w min_h : Nat) (tw : ℚ) (page_num : Nat) (env : PageEnv) (s : Nat)
    (hc : env.create_dir = .ok ()) (hr : env.render = .ok ()) (hi : env.imread = none) :
    process_page min_w min_h tw page_num env s = (Except.ok (), s, []) := by
  unfold process_page page_body
  rw [hc, hr, hi]

/-- C3 witness: the amended statement at a concrete environment. -/
theorem claim_C3_witness :
    process_page 200 200 10 3 envNone 5 = (Except.ok (), 5, []) :=
  claim_C3 200 200 10 3 envNone 5 rfl rfl rfl

/-- C5: an exception raised by any step inside the `try` body surfaces
as a `page_body` error; whenever `page_body` errors, the pipeline logs
the page index with the error detail, re-raises the same error to the
caller, and leaves the progress counter unchanged. The step conjuncts
cover directory creation, rendering, detection, and the crop/tile/write
loop. -/
theorem claim_C5 (min_w min_h : Nat) (tw : ℚ) (page_num : Nat) (env : PageEnv) (s : Nat) :
    (∀ e, page_body min_w min_h tw env = .error e →
        process_page min_w min_h tw page_num env s = (.error e, s, [err_line page_num e])) ∧
    (∀ e, env.create_dir = .error e → page_body min_w min_h tw env = .error e) ∧
    (∀ e, env.create_dir = .ok () → env.render = .error e →
        page_body min_w min_h tw env = .error e) ∧
    (∀ e img, env.create_dir = .ok () → env.render = .ok () → env.imread = some img →
        env.detect img = .error e → page_body min_w min_h tw env = .error e) ∧
    (∀ e img rects, env.create_dir = .ok () → env.render = .ok () → env.imread = some img →
        env.detect img = .ok rects →
        write_regions env tw img 0 1 (process_contours min_w min_h rects) = .error e →
        page_body min_w min_h tw env = .error e) := by
  refine ⟨?_, ?_, ?_, ?_, ?_⟩
  · intro e he
    unfold process_page
    rw [he]
  · intro e he
    unfold page_body
    rw [he]
  · intro e hc he
    unfold page_body
    rw [hc, he]
  · intro e img hc hr hi he
    unfold page_body
    rw [hc, hr, hi]
    dsimp only
    rw [he]
  · intro e img rects hc hr hi hd he
    unfold page_body
    rw [hc, hr, hi]
    dsimp only
    rw [hd]
    dsimp only
    rw [he]

/-- C5 witness: a failing directory creation is logged with the page
index, re-raised, and does not advance the counter. -/
theorem claim_C5_witness :
    process_page 200 200 10 3 envBad 5 = (.error "boom", 5, [err_line 3 "boom"]) :=
  (claim_C5 200 200 10 3 envBad 5).1 "boom"
    ((claim_C5 200 200 10 3 envBad 5).2.1 "boom" rfl)

/-- C7, counterexample. The claim computes the effective end page as
`min(configured end, page count)` for every configuration. With a
configured end page of `0` and a 5-page document, `min(0, 5) = 0` would
give an empty range, but the code's truthiness test `end_page or
page_count` replaces `0` by the page count: pages 1..4 are submitted. -/
theorem claim_C7_counterexample :
    effective_end (some 0) 5 = 5 ∧
    min (0:Int) 5 = 0 ∧
    submitted_pages 1 (some 0) 5 = [1, 2, 3, 4] := by
  refine ⟨rfl, rfl, ?_⟩
  rfl

/-- C7 (amended): the effective end page defaults to the document page
count when the configured end page is unset or `0`; for any nonzero
configured end page `e` it equals `min(e, page count)`; and the
coordinator submits exactly one page-pipeline invocation per index in
`[start_page, effective_end)`: no duplicates, membership is exactly that
interval, and the count is its size. -/
theorem claim_C7 (start_page : Int) (end_page : Option Int) (page_count : Int) :
    effective_end none page_count = page_count ∧
    effective_end (some 0) page_count = page_count ∧
    (∀ e : Int, e ≠ 0 → effective_end (some e) page_count = min e page_count) ∧
    (submitted_pages start_page end_page page_count).Nodup ∧
    (∀ p : Int, p ∈ submitted_pages start_page end_page page_count ↔
        start_page ≤ p ∧ p < effective_end end_page page_count) ∧
    (submitted_pages start_page end_page page_count).length =
      (effective_end end_page page_count - start_page).toNat := by
  refine ⟨by simp [effective_end], by simp [effective_end], ?_, ?_, ?_, ?_⟩
  · intro e he
    simp [effective_end, he]
  · refine List.Nodup.map ?_ (List.nodup_range _)
    intro i j hij
    dsimp only at hij
    omega
  · intro p
    simp only [submitted_pages, int_range, List.mem_map, List.mem_range]
    constructor
    · rintro ⟨i, hi, rfl⟩
      omega
    · intro hp
      exact ⟨(p - start_page).toNat, by omega, by omega⟩
  · simp [submitted_pages, int_range]

/-- C7 witness: the amended statement evaluated at start page 1,
configured end 3, page count 5. -/
theorem claim_C7_witness :
    effective_end (some 3) 5 = min 3 5 ∧
    (2 ∈ submitted_pages 1 (some 3) 5 ↔ 1 ≤ (2:Int) ∧ (2:Int) < effective_end (some 3) 5) :=
  ⟨(claim_C7 1 (some 3) 5).2.2.1 3 (by decide),
    (claim_C7 1 (some 3) 5).2.2.2.2.1 2⟩

/-- C9: a configured end page of `0` behaves identically to leaving the
end page unset: the truthiness default replaces both by the document
page count, so the same page range is submitted. -/
theorem claim_C9 (start_page page_count : Int) :
    effective_end (some 0) page_count = effective_end none page_count ∧
    submitted_pages start_page (some 0) page_count =
      submitted_pages start_page none page_count :=
  ⟨rfl, rfl⟩

end CutWord
